import Mathlib

/-!
Verification of `internal/distributor/distributor.go` from the supernova
repository: the funding allocator that scans participant accounts for
shortfalls against a required balance, greedily selects how many short
accounts the funding (distributor) account can afford to top up, and then
signs and broadcasts the top-up transfers sequentially with a locally
tracked nonce.

Modelling conventions:
- Amounts (`std.Coin.Amount`, an `int64` in Go) are `Int`; all coins in the
  distributor use the single denomination `common.Denomination`, so a
  `std.Coins` value is modelled by its amount of that denomination
  (`Coins.AmountOf(common.Denomination)`).
- Addresses (`keys.Info.GetAddress().String()`) are opaque identifiers,
  modelled as `Nat`.
- The three collaborator interfaces (`accountStore`, `txSigner`,
  `txBroadcaster`) are an environment of functions returning `Except`.
- Go's `(value, error)` return pair is modelled by a pair of `Option`s,
  mirroring each `return` statement literally; externally visible actions
  (store lookups, signed transactions, broadcasts) are logged as events.
-/

namespace Supernova

/-- Addresses are opaque identifiers; `keys.Info.GetAddress().String()`. -/
abbrev Address := Nat

/-- Model of `keys.Info`: only the address is relevant to the distributor. -/
structure KeysInfo where
  address : Address
  deriving DecidableEq, Repr

/-- Model of `gnoland.GnoAccount`: its address, its balance of
`common.Denomination` (`Coins.AmountOf`), and its sequence number. -/
structure GnoAccount where
  address : Address
  balance : Int
  sequence : Nat
  deriving DecidableEq, Repr

/-- Model of the `std.Tx` built in `fundAccounts`: a single `bank.MsgSend`
from the distributor to a short account for its missing funds, plus the
fixed fee attached via `std.NewFee`. -/
structure Tx where
  fromAddr : Address
  toAddr : Address
  amount : Int
  fee : Int
  deriving DecidableEq, Repr

/-- Externally visible actions of `fundAccounts`, in order: account-store
lookups, successfully signed transactions (with the nonce used), and
successfully committed broadcasts. -/
inductive Event where
  | lookup (addr : Address)
  | signed (tx : Tx) (nonce : Nat)
  | broadcast (tx : Tx)
  deriving DecidableEq, Repr

/-- The collaborator interfaces `accountStore.GetAccount`,
`txSigner.SignTx` and `txBroadcaster.BroadcastTxWithCommit`. -/
structure Env where
  getAccount : Address → Except String GnoAccount
  signTx : Tx → GnoAccount → Nat → String → Except String Unit
  broadcastTx : Tx → Except String Unit

/-- The local `shortAccount` struct of `fundAccounts`: an account paired
with its missing funds. -/
structure ShortAccount where
  account : KeysInfo
  missingFunds : Int
  deriving DecidableEq, Repr

/-- The error returns of `fundAccounts`, each wrapping the underlying
cause string exactly as the corresponding `fmt.Errorf`/`errors.New`. -/
inductive DistError where
  | fetchSubAccount (cause : String)
  | fetchDistributor (cause : String)
  | insufficientDistributorFunds
  | signTx (cause : String)
  | broadcastTx (cause : String)
  deriving DecidableEq, Repr

/-- The Go return pair `([]keys.Info, error)` of `fundAccounts`, plus the
event log. Each `return` statement in the Go code sets exactly one of
`res`/`err`. -/
structure FundResult where
  res : Option (List KeysInfo)
  err : Option DistError
  events : List Event
  deriving DecidableEq, Repr

/-- Modelled from the spec: `common.DefaultGasFee`, the fixed 1ugnot
per-transfer network fee (`internal/common` is not in the sources; the
code comment reads "+ 1ugnot fee (fixed)" and the spec fixes the fee at 1). -/
def DefaultGasFee : Int := 1

/-- Modelled from the spec: `common.InitialTxCost`, the fixed
per-transaction base cost added to the gas fee by the cost model
(`internal/common` is not in the sources; the spec says both cost
constants are fixed per deployment). -/
def InitialTxCost : Int := 1000000

/-- Modelled from the spec: `common.EncryptPassword`, the key-store
credential passed through to `SignTx`; its value never influences the
distributor logic. -/
def EncryptPassword : String := "password"

/-- The scan loop of `fundAccounts` (`for _, account := range accounts[1:]`):
look up each participant's balance, abort on a lookup failure, and bucket
the participant as ready (`balance ≥ cost`) or short (with
`missingFunds = cost - balance`). Returns the ready and short lists in
input order together with the lookups performed. -/
def scanAccounts (env : Env) (cost : Int) :
    List KeysInfo → Except String (List KeysInfo × List ShortAccount) × List Event
  | [] => (Except.ok ([], []), [])
  | account :: rest =>
    match env.getAccount account.address with
    | Except.error e => (Except.error e, [Event.lookup account.address])
    | Except.ok subAccount =>
      match scanAccounts env cost rest with
      | (Except.error e, evs) => (Except.error e, Event.lookup account.address :: evs)
      | (Except.ok (ready, shorts), evs) =>
        if subAccount.balance < cost then
          (Except.ok (ready, ⟨account, cost - subAccount.balance⟩ :: shorts),
            Event.lookup account.address :: evs)
        else
          (Except.ok (account :: ready, shorts), Event.lookup account.address :: evs)

/-- Insert a short account into a list sorted by non-decreasing
`missingFunds`, using the comparator of the Go `sort.Slice` call
(`shortAccounts[i].missingFunds.IsLT(shortAccounts[j].missingFunds)`). -/
def insertShort (a : ShortAccount) : List ShortAccount → List ShortAccount
  | [] => [a]
  | b :: rest =>
    if a.missingFunds < b.missingFunds then a :: b :: rest else b :: insertShort a rest

/-- The `sort.Slice(shortAccounts, ...)` call: produce a permutation of the
short accounts ordered by non-decreasing `missingFunds` (Go's `sort.Slice`
is an unspecified unstable comparison sort; insertion sort realises the
same contract). -/
def sortShort : List ShortAccount → List ShortAccount
  | [] => []
  | a :: rest => insertShort a (sortShort rest)

/-- Model of `std.Coins.Sub`: value semantics, returns the difference and
does not mutate its receiver. -/
def coinsSub (a b : Int) : Int := a - b

/-- The greedy loop of `fundAccounts` computing `fundableIndex`. NOTE on
faithfulness: the Go code writes `distributorBalance.Sub(transferCost)` and
discards the returned value (`std.Coins.Sub` has value semantics), so the
balance compared against is never actually decremented; the `let _ :=`
mirrors that discarded call. -/
def fundableCount (distributorBalance : Int) : List ShortAccount → Nat
  | [] => 0
  | account :: rest =>
    let transferCost := DefaultGasFee + account.missingFunds
    if distributorBalance < transferCost then 0
    else
      let _ := coinsSub distributorBalance transferCost
      fundableCount distributorBalance rest + 1

/-- The execution loop of `fundAccounts` (`for _, account := range
shortAccounts`): build each transfer, sign it with the locally tracked
nonce, increment the nonce, broadcast with commit, and append the account
to the ready list; any sign or broadcast failure aborts with `(nil, err)`. -/
def executeTransfers (env : Env) (distributor : GnoAccount) :
    Nat → List ShortAccount → List KeysInfo →
      (Option (List KeysInfo) × Option DistError) × List Event
  | _, [], readyAccounts => ((some readyAccounts, none), [])
  | nonce, account :: rest, readyAccounts =>
    let tx : Tx :=
      { fromAddr := distributor.address
        toAddr := account.account.address
        amount := account.missingFunds
        fee := DefaultGasFee }
    match env.signTx tx distributor nonce EncryptPassword with
    | Except.error e => ((none, some (DistError.signTx e)), [])
    | Except.ok _ =>
      match env.broadcastTx tx with
      | Except.error e => ((none, some (DistError.broadcastTx e)), [Event.signed tx nonce])
      | Except.ok _ =>
        let step := executeTransfers env distributor (nonce + 1) rest
          (readyAccounts ++ [account.account])
        (step.1, Event.signed tx nonce :: Event.broadcast tx :: step.2)

/-- Model of `fundAccounts` on the funding account (`accounts[0]`) and the
participants (`accounts[1:]`): scan, sort the short accounts, fetch the
distributor account, compute `fundableIndex`, fail if it is zero, and run
the execution loop. NOTE on faithfulness: the execution loop ranges over
ALL of `shortAccounts`, not `shortAccounts[:fundableIndex]` — the computed
`fundableIndex` is only used for the zero check, exactly as in the Go code. -/
def fundAccounts (env : Env) (funding : KeysInfo) (participants : List KeysInfo)
    (singleRunCost : Int) : FundResult :=
  match scanAccounts env singleRunCost participants with
  | (Except.error e, evs) => ⟨none, some (DistError.fetchSubAccount e), evs⟩
  | (Except.ok (readyAccounts, shortAccounts0), scanEvs) =>
    let shortAccounts := sortShort shortAccounts0
    match env.getAccount funding.address with
    | Except.error e =>
        ⟨none, some (DistError.fetchDistributor e), scanEvs ++ [Event.lookup funding.address]⟩
    | Except.ok distributor =>
      let fundableIndex := fundableCount distributor.balance shortAccounts
      if fundableIndex = 0 then
        ⟨none, some DistError.insufficientDistributorFunds,
          scanEvs ++ [Event.lookup funding.address]⟩
      else
        let nonce := distributor.sequence
        let step := executeTransfers env distributor nonce shortAccounts readyAccounts
        ⟨step.1.1, step.1.2, scanEvs ++ [Event.lookup funding.address] ++ step.2⟩

/-- Wrapper of `fundAccounts` on the raw account list: the Go code evaluates
`accounts[1:]` and `accounts[0]` with no emptiness guard, so on an empty
list it panics (index out of range) instead of returning an error; the
panic is modelled as `none`. -/
def fundAccountsGo (env : Env) (accounts : List KeysInfo) (singleRunCost : Int) :
    Option FundResult :=
  match accounts with
  | [] => none
  | funding :: participants => some (fundAccounts env funding participants singleRunCost)

/-- Model of `calculateRuntimeCosts`: required balance =
`totalTx * (DefaultGasFee + InitialTxCost)`. -/
def calculateRuntimeCosts (totalTx : Int) : Int :=
  totalTx * (DefaultGasFee + InitialTxCost)

/-- Model of `Distributor.Distribute`: compute the per-account runtime cost and fund
the accounts. -/
def Distribute (env : Env) (accounts : List KeysInfo) (transactions : Int) :
    Option FundResult :=
  fundAccountsGo env accounts (calculateRuntimeCosts transactions)

/-- Number of `signed` events in a log. -/
def signedCount (evs : List Event) : Nat :=
  (evs.filter fun e => match e with | Event.signed _ _ => true | _ => false).length

/-- Number of `broadcast` events in a log. -/
def broadcastCount (evs : List Event) : Nat :=
  (evs.filter fun e => match e with | Event.broadcast _ => true | _ => false).length

/-- Number of `lookup` events at a given address. -/
def lookupCount (a : Address) (evs : List Event) : Nat :=
  (evs.filter fun e => match e with | Event.lookup b => b = a | _ => false).length

/-- The nonces of the `signed` events, in order. -/
def signedNonces (evs : List Event) : List Nat :=
  evs.filterMap fun e => match e with | Event.signed _ n => some n | _ => none

/-- The destination addresses of the `signed` events, in order. -/
def signedTargets (evs : List Event) : List Address :=
  evs.filterMap fun e => match e with | Event.signed tx _ => some tx.toAddr | _ => none

/-- Total cost (missing funds plus fixed fee) of the first `k` short
accounts of a list. -/
def selectedCost (shorts : List ShortAccount) (k : Nat) : Int :=
  ((shorts.take k).map fun sa => DefaultGasFee + sa.missingFunds).sum

/-- Smallest `missingFunds` of a non-empty short-account list, given as a
head element and a tail. -/
def smallestMissing (sa : ShortAccount) (rest : List ShortAccount) : Int :=
  rest.foldl (fun m b => min m b.missingFunds) sa.missingFunds

/-- Environment for the end-to-end scenario of the spec: distributor
(address 0) with balance 1000 and sequence 5; two participants that are
short by 100 (address 1, balance 1900 against requirement 2000) and by
2000 (address 2, balance 0); signing and broadcasting always succeed. -/
def envTwoShorts : Env where
  getAccount a :=
    if a = 0 then Except.ok ⟨0, 1000, 5⟩
    else if a = 1 then Except.ok ⟨1, 1900, 0⟩
    else if a = 2 then Except.ok ⟨2, 0, 0⟩
    else Except.error "unknown address"
  signTx _ _ _ _ := Except.ok ()
  broadcastTx _ := Except.ok ()

/-- Environment where the sole participant (address 1, balance 100)
already meets the requirement of 100 and the distributor (address 0) holds
a large balance. -/
def envAllReady : Env where
  getAccount a :=
    if a = 0 then Except.ok ⟨0, 1000000, 3⟩
    else if a = 1 then Except.ok ⟨1, 100, 0⟩
    else Except.error "unknown address"
  signTx _ _ _ _ := Except.ok ()
  broadcastTx _ := Except.ok ()

/-- Environment where the distributor (address 0) holds 50, below the sole
participant's shortfall of 100 plus the fee. -/
def envNoFunds : Env where
  getAccount a :=
    if a = 0 then Except.ok ⟨0, 50, 0⟩
    else if a = 1 then Except.ok ⟨1, 0, 0⟩
    else Except.error "unknown address"
  signTx _ _ _ _ := Except.ok ()
  broadcastTx _ := Except.ok ()

/-- Environment where the balance lookup for address 1 fails. -/
def envLookupFail : Env where
  getAccount a :=
    if a = 0 then Except.ok ⟨0, 1000, 0⟩
    else Except.error "boom"
  signTx _ _ _ _ := Except.ok ()
  broadcastTx _ := Except.ok ()

/-- Inserting with `insertShort` permutes consing. -/
theorem insertShort_perm (a : ShortAccount) (l : List ShortAccount) :
    List.Perm (insertShort a l) (a :: l) := by
  induction l with
  | nil => simp [insertShort]
  | cons b rest ih =>
    by_cases h : a.missingFunds < b.missingFunds
    · simp [insertShort, h]
    · simp only [insertShort, if_neg h]
      exact (ih.cons b).trans (List.Perm.swap a b rest)

/-- The sort `sortShort` permutes its input. -/
theorem sortShort_perm (l : List ShortAccount) : List.Perm (sortShort l) l := by
  induction l with
  | nil => simp [sortShort]
  | cons a rest ih =>
    exact (insertShort_perm a (sortShort rest)).trans (ih.cons a)

/-- Insertion with `insertShort` preserves sortedness by non-decreasing missing funds. -/
theorem insertShort_pairwise {a : ShortAccount} {l : List ShortAccount}
    (h : l.Pairwise fun x y => x.missingFunds ≤ y.missingFunds) :
    (insertShort a l).Pairwise fun x y => x.missingFunds ≤ y.missingFunds := by
  induction l with
  | nil => simp [insertShort]
  | cons b rest ih =>
    rcases List.pairwise_cons.mp h with ⟨hb, hrest⟩
    by_cases hab : a.missingFunds < b.missingFunds
    · simp only [insertShort, if_pos hab]
      refine List.pairwise_cons.mpr ⟨?_, h⟩
      intro x hx
      rcases List.mem_cons.mp hx with rfl | hx
      · exact le_of_lt hab
      · exact (le_of_lt hab).trans (hb x hx)
    · simp only [insertShort, if_neg hab]
      refine List.pairwise_cons.mpr ⟨?_, ih hrest⟩
      intro x hx
      rcases List.mem_cons.mp ((insertShort_perm a rest).mem_iff.mp hx) with rfl | hx
      · exact not_lt.mp hab
      · exact hb x hx

/-- The result of `sortShort` is sorted by non-decreasing missing funds. -/
theorem sortShort_pairwise (l : List ShortAccount) :
    (sortShort l).Pairwise fun x y => x.missingFunds ≤ y.missingFunds := by
  induction l with
  | nil => simp [sortShort]
  | cons a rest ih => exact insertShort_pairwise ih

/-- C7: the short-accounts list used for allocation and execution is the
input short accounts re-ordered (a permutation) so that every pair of
adjacent entries has non-decreasing missing funds. -/
theorem sortShort_adjacent_nondecreasing (l : List ShortAccount) :
    List.Chain' (fun a b => a.missingFunds ≤ b.missingFunds) (sortShort l) ∧
    List.Perm (sortShort l) l :=
  ⟨(sortShort_pairwise l).chain', sortShort_perm l⟩

/-- C2 (refuting the claimed invariant on the code as written): with
starting balance 1000, fixed fee 1, and two short accounts of shortfall
600 each, the greedy loop selects both accounts — because the result of
`distributorBalance.Sub(transferCost)` is discarded, the running budget is
never decremented — so the selected prefix costs 1202, exceeding the
starting balance 1000. -/
theorem fundableCount_exceeds_starting_balance :
    fundableCount 1000 (sortShort [⟨⟨1⟩, 600⟩, ⟨⟨2⟩, 600⟩]) = 2 ∧
    selectedCost (sortShort [⟨⟨1⟩, 600⟩, ⟨⟨2⟩, 600⟩]) 2 = 1202 ∧
    ¬selectedCost (sortShort [⟨⟨1⟩, 600⟩, ⟨⟨2⟩, 600⟩]) 2 ≤ 1000 := by
  decide

/-- C1 (refuting the claimed scenario on the code as written): with
distributor balance 1000, fee 1, and shortfalls 100 and 2000, the
allocator computes an affordable count of 1, but the execution loop ranges
over all short accounts: two transfers are signed and broadcast, the nonce
is used twice (5 then 6), and both short accounts are returned. -/
theorem fundAccounts_exceeds_affordable_count :
    fundableCount 1000 (sortShort [⟨⟨1⟩, 100⟩, ⟨⟨2⟩, 2000⟩]) = 1 ∧
    signedCount (fundAccounts envTwoShorts ⟨0⟩ [⟨1⟩, ⟨2⟩] 2000).events = 2 ∧
    broadcastCount (fundAccounts envTwoShorts ⟨0⟩ [⟨1⟩, ⟨2⟩] 2000).events = 2 ∧
    signedNonces (fundAccounts envTwoShorts ⟨0⟩ [⟨1⟩, ⟨2⟩] 2000).events = [5, 6] ∧
    (fundAccounts envTwoShorts ⟨0⟩ [⟨1⟩, ⟨2⟩] 2000).res = some [⟨1⟩, ⟨2⟩] := by
  decide

/-- C3 (refuting the claimed scenario on the code as written): when the
sole participant already meets the requirement the scan produces zero
short accounts, so `fundableIndex` is 0 and the code returns the
"insufficient distributor funds" error instead of the ready list, even
though the distributor holds ample funds. -/
theorem fundAccounts_errors_when_all_ready :
    fundAccounts envAllReady ⟨0⟩ [⟨1⟩] 100 =
      ⟨none, some DistError.insufficientDistributorFunds,
        [Event.lookup 1, Event.lookup 0]⟩ := by
  decide

/-- Soundness and completeness of the scan loop: bucket members come from
the participants with the balances the store reported, every participant
lands in the bucket its balance dictates, and every logged event is a
participant lookup. -/
theorem scanAccounts_spec (env : Env) (cost : Int) :
    ∀ ps ready shorts evs,
      scanAccounts env cost ps = (Except.ok (ready, shorts), evs) →
      (∀ a ∈ ready, a ∈ ps ∧ ∃ acc, env.getAccount a.address = Except.ok acc ∧
          cost ≤ acc.balance) ∧
      (∀ sa ∈ shorts, sa.account ∈ ps ∧ ∃ acc,
          env.getAccount sa.account.address = Except.ok acc ∧
          acc.balance < cost ∧ sa.missingFunds = cost - acc.balance) ∧
      (∀ p ∈ ps, ∃ acc, env.getAccount p.address = Except.ok acc ∧
          (cost ≤ acc.balance → p ∈ ready) ∧
          (acc.balance < cost → ShortAccount.mk p (cost - acc.balance) ∈ shorts)) ∧
      (∀ e ∈ evs, ∃ p, p ∈ ps ∧ e = Event.lookup p.address) := by
  intro ps
  induction ps with
  | nil =>
    intro ready shorts evs h
    simp only [scanAccounts, Prod.mk.injEq, Except.ok.injEq] at h
    obtain ⟨⟨h1, h2⟩, h3⟩ := h
    subst h1; subst h2; subst h3
    simp
  | cons p rest ih =>
    intro ready shorts evs h
    simp only [scanAccounts] at h
    split at h
    · simp at h
    · rename_i subAccount hga
      split at h
      · rename_i e evs' hrec
        simp at h
      · rename_i ready' shorts' evs' hrec
        obtain ⟨ihReady, ihShorts, ihAll, ihEvs⟩ := ih ready' shorts' evs' hrec
        split at h
        · rename_i hlt
          simp only [Prod.mk.injEq, Except.ok.injEq] at h
          obtain ⟨⟨h1, h2⟩, h3⟩ := h
          subst h1; subst h2; subst h3
          refine ⟨?_, ?_, ?_, ?_⟩
          · intro a ha
            obtain ⟨hmem, hrest⟩ := ihReady a ha
            exact ⟨List.mem_cons_of_mem p hmem, hrest⟩
          · intro sa hsa
            rcases List.mem_cons.mp hsa with rfl | hsa
            · exact ⟨List.mem_cons_self p rest,
                subAccount, hga, hlt, rfl⟩
            · obtain ⟨hmem, hrest⟩ := ihShorts sa hsa
              exact ⟨List.mem_cons_of_mem p hmem, hrest⟩
          · intro q hq
            rcases List.mem_cons.mp hq with rfl | hq
            · exact ⟨subAccount, hga,
                fun hge => absurd hge (not_le.mpr hlt),
                fun _ => List.mem_cons_self _ _⟩
            · obtain ⟨acc, hacc, hge, hlt'⟩ := ihAll q hq
              exact ⟨acc, hacc, hge, fun hb => List.mem_cons_of_mem _ (hlt' hb)⟩
          · intro e he
            rcases List.mem_cons.mp he with rfl | he
            · exact ⟨p, List.mem_cons_self p rest, rfl⟩
            · obtain ⟨q, hq, hev⟩ := ihEvs e he
              exact ⟨q, List.mem_cons_of_mem p hq, hev⟩
        · rename_i hge
          simp only [Prod.mk.injEq, Except.ok.injEq] at h
          obtain ⟨⟨h1, h2⟩, h3⟩ := h
          subst h1; subst h2; subst h3
          refine ⟨?_, ?_, ?_, ?_⟩
          · intro a ha
            rcases List.mem_cons.mp ha with rfl | ha
            · exact ⟨List.mem_cons_self a rest, subAccount, hga, not_lt.mp hge⟩
            · obtain ⟨hmem, hrest⟩ := ihReady a ha
              exact ⟨List.mem_cons_of_mem p hmem, hrest⟩
          · intro sa hsa
            obtain ⟨hmem, hrest⟩ := ihShorts sa hsa
            exact ⟨List.mem_cons_of_mem p hmem, hrest⟩
          · intro q hq
            rcases List.mem_cons.mp hq with rfl | hq
            · exact ⟨subAccount, hga, fun _ => List.mem_cons_self _ _,
                fun hb => absurd hb (not_lt.mpr (not_lt.mp hge))⟩
            · obtain ⟨acc, hacc, hge', hlt'⟩ := ihAll q hq
              exact ⟨acc, hacc, fun hb => List.mem_cons_of_mem _ (hge' hb), hlt'⟩
          · intro e he
            rcases List.mem_cons.mp he with rfl | he
            · exact ⟨p, List.mem_cons_self p rest, rfl⟩
            · obtain ⟨q, hq, hev⟩ := ihEvs e he
              exact ⟨q, List.mem_cons_of_mem p hq, hev⟩

/-- C5: the scan classifies a participant as ready exactly when its
balance meets the required balance `R`; otherwise it records it short with
shortfall exactly `R - balance`, and every recorded shortfall is strictly
positive. -/
theorem scanAccounts_classifies (env : Env) (R : Int) (ps ready : List KeysInfo)
    (shorts : List ShortAccount) (evs : List Event)
    (h : scanAccounts env R ps = (Except.ok (ready, shorts), evs)) :
    (∀ p ∈ ps, ∀ acc, env.getAccount p.address = Except.ok acc →
        ((p ∈ ready ↔ R ≤ acc.balance) ∧
         (acc.balance < R → ShortAccount.mk p (R - acc.balance) ∈ shorts))) ∧
    (∀ sa ∈ shorts, ∃ acc, env.getAccount sa.account.address = Except.ok acc ∧
        acc.balance < R ∧ sa.missingFunds = R - acc.balance ∧ 0 < sa.missingFunds) := by
  obtain ⟨hready, hshorts, hall, -⟩ := scanAccounts_spec env R ps ready shorts evs h
  constructor
  · intro p hp acc hacc
    obtain ⟨acc', hacc', hge, hlt⟩ := hall p hp
    rw [hacc, Except.ok.injEq] at hacc'
    subst hacc'
    refine ⟨⟨?_, hge⟩, hlt⟩
    intro hmem
    obtain ⟨-, acc'', hacc'', hge''⟩ := hready p hmem
    rw [hacc, Except.ok.injEq] at hacc''
    subst hacc''
    exact hge''
  · intro sa hsa
    obtain ⟨-, acc, hacc, hlt, hmf⟩ := hshorts sa hsa
    exact ⟨acc, hacc, hlt, hmf, hmf ▸ sub_pos.mpr hlt⟩

/-- The fold computing `smallestMissing` is below its seed and below every
element of the list. -/
theorem foldl_min_le (l : List ShortAccount) :
    ∀ i : Int, l.foldl (fun m b => min m b.missingFunds) i ≤ i ∧
      ∀ b ∈ l, l.foldl (fun m b => min m b.missingFunds) i ≤ b.missingFunds := by
  induction l with
  | nil => intro i; exact ⟨le_refl i, by simp⟩
  | cons c rest ih =>
    intro i
    simp only [List.foldl_cons]
    refine ⟨((ih (min i c.missingFunds)).1).trans (min_le_left _ _), ?_⟩
    intro b hb
    rcases List.mem_cons.mp hb with rfl | hb
    · exact ((ih (min i b.missingFunds)).1).trans (min_le_right _ _)
    · exact (ih (min i c.missingFunds)).2 b hb

/-- The value `smallestMissing` is below the missing funds of every listed account. -/
theorem smallestMissing_le (sa : ShortAccount) (rest : List ShortAccount) :
    ∀ b ∈ sa :: rest, smallestMissing sa rest ≤ b.missingFunds := by
  intro b hb
  rcases List.mem_cons.mp hb with rfl | hb
  · exact (foldl_min_le rest b.missingFunds).1
  · exact (foldl_min_le rest sa.missingFunds).2 b hb

/-- An event log consisting only of lookups has no signed or broadcast
events. -/
theorem lookups_only_counts {evs : List Event}
    (h : ∀ e ∈ evs, ∃ a : Address, e = Event.lookup a) :
    signedCount evs = 0 ∧ broadcastCount evs = 0 ∧
    signedNonces evs = [] ∧ signedTargets evs = [] := by
  induction evs with
  | nil => simp [signedCount, broadcastCount, signedNonces, signedTargets]
  | cons e rest ih =>
    obtain ⟨a, rfl⟩ := h e (List.mem_cons_self e rest)
    obtain ⟨h1, h2, h3, h4⟩ := ih fun e he => h e (List.mem_cons_of_mem _ he)
    refine ⟨?_, ?_, ?_, ?_⟩
    · simpa [signedCount] using h1
    · simpa [broadcastCount] using h2
    · simpa [signedNonces] using h3
    · simpa [signedTargets] using h4

/-- An event log whose lookups all target participant addresses contains
no lookup of a non-participant address. -/
theorem lookupCount_zero {evs : List Event} {ps : List KeysInfo} {x : Address}
    (h : ∀ e ∈ evs, ∃ p, p ∈ ps ∧ e = Event.lookup p.address)
    (hx : x ∉ ps.map KeysInfo.address) :
    lookupCount x evs = 0 := by
  induction evs with
  | nil => simp [lookupCount]
  | cons e rest ih =>
    obtain ⟨p, hp, rfl⟩ := h e (List.mem_cons_self e rest)
    have hne : p.address ≠ x := fun hpx =>
      hx (hpx ▸ List.mem_map.mpr ⟨p, hp, rfl⟩)
    have := ih fun e he => h e (List.mem_cons_of_mem _ he)
    simpa [lookupCount, hne] using this

/-- The greedy loop selects nothing when the distributor balance is below
the fee plus the smallest missing amount of a non-empty sorted list. -/
theorem fundableCount_zero (dist : GnoAccount) (sa : ShortAccount)
    (rest : List ShortAccount)
    (hlt : dist.balance < DefaultGasFee + smallestMissing sa rest) :
    fundableCount dist.balance (sortShort (sa :: rest)) = 0 := by
  cases hs : sortShort (sa :: rest) with
  | nil =>
    have := (sortShort_perm (sa :: rest)).length_eq
    rw [hs] at this
    simp at this
  | cons b tail =>
    have hmem : b ∈ sa :: rest :=
      (sortShort_perm (sa :: rest)).mem_iff.mp (hs ▸ List.mem_cons_self b tail)
    have hb : dist.balance < DefaultGasFee + b.missingFunds :=
      lt_of_lt_of_le hlt (add_le_add_left (smallestMissing_le sa rest b hmem) _)
    simp [fundableCount, hb]

/-- C4: when the scan finds at least one short account and the distributor
balance is strictly below the smallest shortfall plus the fixed fee,
`fundAccounts` fails with the distinct insufficient-funds error and signs
and broadcasts nothing. -/
theorem fundAccounts_insufficient (env : Env) (f : KeysInfo) (ps ready : List KeysInfo)
    (sa : ShortAccount) (rest : List ShortAccount) (evs : List Event)
    (dist : GnoAccount) (cost : Int)
    (hscan : scanAccounts env cost ps = (Except.ok (ready, sa :: rest), evs))
    (hdist : env.getAccount f.address = Except.ok dist)
    (hlt : dist.balance < DefaultGasFee + smallestMissing sa rest) :
    fundAccounts env f ps cost =
      ⟨none, some DistError.insufficientDistributorFunds,
        evs ++ [Event.lookup f.address]⟩ ∧
    signedCount (fundAccounts env f ps cost).events = 0 ∧
    broadcastCount (fundAccounts env f ps cost).events = 0 := by
  have hfc := fundableCount_zero dist sa rest hlt
  have hmain : fundAccounts env f ps cost =
      ⟨none, some DistError.insufficientDistributorFunds,
        evs ++ [Event.lookup f.address]⟩ := by
    simp [fundAccounts, hscan, hdist, hfc]
  obtain ⟨-, -, -, hevs⟩ := scanAccounts_spec env cost ps ready (sa :: rest) evs hscan
  have hlk : ∀ e ∈ evs ++ [Event.lookup f.address], ∃ a : Address, e = Event.lookup a := by
    intro e he
    rcases List.mem_append.mp he with he | he
    · obtain ⟨p, -, hev⟩ := hevs e he
      exact ⟨p.address, hev⟩
    · simp only [List.mem_singleton] at he
      exact ⟨f.address, he⟩
  obtain ⟨h1, h2, -, -⟩ := lookups_only_counts hlk
  rw [hmain]
  exact ⟨rfl, h1, h2⟩

/-- The map `signedTargets` distributes over append. -/
theorem signedTargets_append (l1 l2 : List Event) :
    signedTargets (l1 ++ l2) = signedTargets l1 ++ signedTargets l2 := by
  simp [signedTargets]

/-- The map `signedNonces` distributes over append. -/
theorem signedNonces_append (l1 l2 : List Event) :
    signedNonces (l1 ++ l2) = signedNonces l1 ++ signedNonces l2 := by
  simp [signedNonces]

/-- The count `lookupCount` adds over append. -/
theorem lookupCount_append (a : Address) (l1 l2 : List Event) :
    lookupCount a (l1 ++ l2) = lookupCount a l1 + lookupCount a l2 := by
  simp [lookupCount]

/-- Every signed transfer of the execution loop targets one of the short
accounts it was given. -/
theorem executeTransfers_targets (env : Env) (d : GnoAccount) :
    ∀ shorts nonce ready t,
      t ∈ signedTargets (executeTransfers env d nonce shorts ready).2 →
      ∃ sa, sa ∈ shorts ∧ t = sa.account.address := by
  intro shorts
  induction shorts with
  | nil =>
    intro nonce ready t ht
    simp [executeTransfers, signedTargets] at ht
  | cons a rest ih =>
    intro nonce ready t ht
    simp only [executeTransfers] at ht
    split at ht
    · simp [signedTargets] at ht
    · split at ht
      · simp [signedTargets] at ht
        exact ⟨a, List.mem_cons_self a rest, ht⟩
      · simp only [signedTargets, List.filterMap_cons] at ht
        simp only [List.mem_cons] at ht
        rcases ht with rfl | ht
        · exact ⟨a, List.mem_cons_self a rest, rfl⟩
        · obtain ⟨sa, hsa, hta⟩ := ih _ _ t ht
          exact ⟨sa, List.mem_cons_of_mem a hsa, hta⟩

/-- The nonces of the signed transfers of the execution loop are
consecutive, starting at the given nonce. -/
theorem executeTransfers_nonces (env : Env) (d : GnoAccount) :
    ∀ shorts nonce ready,
      signedNonces (executeTransfers env d nonce shorts ready).2 =
        List.range' nonce
          (signedNonces (executeTransfers env d nonce shorts ready).2).length := by
  intro shorts
  induction shorts with
  | nil =>
    intro nonce ready
    simp [executeTransfers, signedNonces]
  | cons a rest ih =>
    intro nonce ready
    simp only [executeTransfers]
    split
    · simp [signedNonces]
    · split
      · simp [signedNonces, List.range']
      · have ihh := ih (nonce + 1) (ready ++ [a.account])
        simp only [signedNonces, List.filterMap_cons] at ihh ⊢
        rw [List.length_cons, List.range'_succ]
        exact congrArg (List.cons nonce) ihh

/-- The execution loop performs no account-store lookups. -/
theorem executeTransfers_no_lookup (env : Env) (d : GnoAccount) :
    ∀ shorts nonce ready a,
      lookupCount a (executeTransfers env d nonce shorts ready).2 = 0 := by
  intro shorts
  induction shorts with
  | nil =>
    intro nonce ready a
    simp [executeTransfers, lookupCount]
  | cons b rest ih =>
    intro nonce ready a
    simp only [executeTransfers]
    split
    · simp [lookupCount]
    · split
      · simp [lookupCount]
      · have ihh := ih (nonce + 1) (ready ++ [b.account]) a
        simp only [lookupCount, List.filter_cons] at ihh ⊢
        simpa using ihh

/-- The execution loop returns a result exactly when it returns no error. -/
theorem executeTransfers_res_err (env : Env) (d : GnoAccount) :
    ∀ shorts nonce ready,
      ((executeTransfers env d nonce shorts ready).1.1 = none ↔
        ((executeTransfers env d nonce shorts ready).1.2).isSome) := by
  intro shorts
  induction shorts with
  | nil =>
    intro nonce ready
    simp [executeTransfers]
  | cons a rest ih =>
    intro nonce ready
    simp only [executeTransfers]
    split
    · simp
    · split
      · simp
      · exact ih (nonce + 1) (ready ++ [a.account])

/-- An error of the execution loop is a signing or broadcast failure, and
carries the cause the environment reported. -/
theorem executeTransfers_err_cause (env : Env) (d : GnoAccount) :
    ∀ shorts nonce ready e,
      (executeTransfers env d nonce shorts ready).1.2 = some e →
      (∃ c tx n, e = DistError.signTx c ∧
        env.signTx tx d n EncryptPassword = Except.error c) ∨
      (∃ c tx, e = DistError.broadcastTx c ∧ env.broadcastTx tx = Except.error c) := by
  intro shorts
  induction shorts with
  | nil =>
    intro nonce ready e he
    simp [executeTransfers] at he
  | cons a rest ih =>
    intro nonce ready e he
    simp only [executeTransfers] at he
    split at he
    · rename_i c hsig
      simp only [Option.some.injEq] at he
      exact Or.inl ⟨c, _, nonce, he.symm, hsig⟩
    · split at he
      · rename_i c hbr
        simp only [Option.some.injEq] at he
        exact Or.inr ⟨c, _, he.symm, hbr⟩
      · exact ih (nonce + 1) (ready ++ [a.account]) e he

/-- C6: when the funding account's address differs from every
participant's address, the funding account appears in neither the ready
bucket nor the short bucket of the scan, and no signed transfer targets
it. -/
theorem funding_never_evaluated (env : Env) (f : KeysInfo) (ps ready : List KeysInfo)
    (shorts : List ShortAccount) (evs : List Event) (cost : Int)
    (hne : f.address ∉ ps.map KeysInfo.address)
    (hscan : scanAccounts env cost ps = (Except.ok (ready, shorts), evs)) :
    f.address ∉ ready.map KeysInfo.address ∧
    (∀ sa ∈ shorts, sa.account.address ≠ f.address) ∧
    (∀ t ∈ signedTargets (fundAccounts env f ps cost).events, t ≠ f.address) := by
  obtain ⟨hreadyS, hshortsS, -, hevs⟩ := scanAccounts_spec env cost ps ready shorts evs hscan
  have hscanTargets : signedTargets evs = [] :=
    (lookups_only_counts fun e he => (hevs e he).elim fun p hp => ⟨p.address, hp.2⟩).2.2.2
  refine ⟨?_, ?_, ?_⟩
  · intro hmem
    obtain ⟨a, ha, haddr⟩ := List.mem_map.mp hmem
    exact hne (List.mem_map.mpr ⟨a, (hreadyS a ha).1, haddr⟩)
  · intro sa hsa hsaddr
    exact hne (List.mem_map.mpr ⟨sa.account, (hshortsS sa hsa).1, hsaddr⟩)
  · intro t ht htf
    simp only [fundAccounts, hscan] at ht
    split at ht
    · rename_i c hga
      rw [signedTargets_append, hscanTargets] at ht
      simp [signedTargets] at ht
    · rename_i dist hga
      split at ht
      · rw [signedTargets_append, hscanTargets] at ht
        simp [signedTargets] at ht
      · rw [signedTargets_append, signedTargets_append, hscanTargets] at ht
        simp only [List.nil_append, List.mem_append] at ht
        rcases ht with ht | ht
        · simp [signedTargets] at ht
        · obtain ⟨sa, hsa, rfl⟩ := executeTransfers_targets env dist _ _ _ t ht
          have hsa' : sa ∈ shorts := (sortShort_perm shorts).mem_iff.mp hsa
          exact hne (List.mem_map.mpr ⟨sa.account, (hshortsS sa hsa').1, htf⟩)

/-- C8: when the run reaches the execution phase, the funding account is
looked up exactly once, and the signed transfers carry consecutive nonces
starting at the fetched sequence number (the k-th transfer uses
sequence + k). -/
theorem nonce_discipline (env : Env) (f : KeysInfo) (ps ready : List KeysInfo)
    (shorts : List ShortAccount) (evs : List Event) (dist : GnoAccount) (cost : Int)
    (hne : f.address ∉ ps.map KeysInfo.address)
    (hscan : scanAccounts env cost ps = (Except.ok (ready, shorts), evs))
    (hdist : env.getAccount f.address = Except.ok dist)
    (hfc : fundableCount dist.balance (sortShort shorts) ≠ 0) :
    lookupCount f.address (fundAccounts env f ps cost).events = 1 ∧
    signedNonces (fundAccounts env f ps cost).events =
      List.range' dist.sequence
        (signedNonces (fundAccounts env f ps cost).events).length := by
  obtain ⟨-, -, -, hevs⟩ := scanAccounts_spec env cost ps ready shorts evs hscan
  have hev : (fundAccounts env f ps cost).events =
      evs ++ [Event.lookup f.address] ++
        (executeTransfers env dist dist.sequence (sortShort shorts) ready).2 := by
    simp [fundAccounts, hscan, hdist, hfc]
  have hscanNonces : signedNonces evs = [] :=
    (lookups_only_counts fun e he => (hevs e he).elim fun p hp => ⟨p.address, hp.2⟩).2.2.1
  constructor
  · rw [hev, lookupCount_append, lookupCount_append,
      lookupCount_zero hevs hne, executeTransfers_no_lookup]
    simp [lookupCount]
  · rw [hev, signedNonces_append, signedNonces_append, hscanNonces]
    have : signedNonces [Event.lookup f.address] = [] := by simp [signedNonces]
    rw [this]
    simpa using executeTransfers_nonces env dist (sortShort shorts) dist.sequence ready

/-- C9: the operation never returns a result list alongside an error, and
every failure surfaces as an error wrapping the underlying cause: a scan
lookup failure, the distributor lookup failure, a signing failure, or a
broadcast failure. -/
theorem error_propagation (env : Env) (f : KeysInfo) (ps : List KeysInfo) (cost : Int) :
    ((fundAccounts env f ps cost).res = none ↔
      ((fundAccounts env f ps cost).err).isSome) ∧
    (∀ c evs, scanAccounts env cost ps = (Except.error c, evs) →
      fundAccounts env f ps cost = ⟨none, some (DistError.fetchSubAccount c), evs⟩) ∧
    (∀ ready shorts evs c,
      scanAccounts env cost ps = (Except.ok (ready, shorts), evs) →
      env.getAccount f.address = Except.error c →
      fundAccounts env f ps cost =
        ⟨none, some (DistError.fetchDistributor c), evs ++ [Event.lookup f.address]⟩) ∧
    (∀ c, (fundAccounts env f ps cost).err = some (DistError.signTx c) →
      ∃ tx d n, env.getAccount f.address = Except.ok d ∧
        env.signTx tx d n EncryptPassword = Except.error c) ∧
    (∀ c, (fundAccounts env f ps cost).err = some (DistError.broadcastTx c) →
      ∃ tx, env.broadcastTx tx = Except.error c) := by
  rcases hscan : scanAccounts env cost ps with ⟨r, evs0⟩
  cases r with
  | error c0 =>
    have hfa : fundAccounts env f ps cost =
        ⟨none, some (DistError.fetchSubAccount c0), evs0⟩ := by
      simp [fundAccounts, hscan]
    refine ⟨by simp [hfa], ?_, ?_, ?_, ?_⟩
    · intro c evs h
      simp only [Prod.mk.injEq, Except.error.injEq] at h
      obtain ⟨h1, h2⟩ := h
      subst h1; subst h2
      exact hfa
    · intro ready shorts evs c h
      simp at h
    · intro c h
      rw [hfa] at h
      simp at h
    · intro c h
      rw [hfa] at h
      simp at h
  | ok p =>
    obtain ⟨ready0, shorts0⟩ := p
    rcases hga : env.getAccount f.address with c0 | dist
    · have hfa : fundAccounts env f ps cost =
          ⟨none, some (DistError.fetchDistributor c0),
            evs0 ++ [Event.lookup f.address]⟩ := by
        simp [fundAccounts, hscan, hga]
      refine ⟨by simp [hfa], ?_, ?_, ?_, ?_⟩
      · intro c evs h
        simp at h
      · intro ready shorts evs c h hg
        simp only [Prod.mk.injEq, Except.ok.injEq] at h
        obtain ⟨⟨h1, h2⟩, h3⟩ := h
        subst h1; subst h2; subst h3
        rw [Except.error.injEq] at hg
        subst hg
        exact hfa
      · intro c h
        rw [hfa] at h
        simp at h
      · intro c h
        rw [hfa] at h
        simp at h
    · by_cases hfc : fundableCount dist.balance (sortShort shorts0) = 0
      · have hfa : fundAccounts env f ps cost =
            ⟨none, some DistError.insufficientDistributorFunds,
              evs0 ++ [Event.lookup f.address]⟩ := by
          simp [fundAccounts, hscan, hga, hfc]
        refine ⟨by simp [hfa], ?_, ?_, ?_, ?_⟩
        · intro c evs h
          simp at h
        · intro ready shorts evs c h hg
          simp at hg
        · intro c h
          rw [hfa] at h
          simp at h
        · intro c h
          rw [hfa] at h
          simp at h
      · have hfa : fundAccounts env f ps cost =
            ⟨(executeTransfers env dist dist.sequence (sortShort shorts0) ready0).1.1,
              (executeTransfers env dist dist.sequence (sortShort shorts0) ready0).1.2,
              evs0 ++ [Event.lookup f.address] ++
                (executeTransfers env dist dist.sequence (sortShort shorts0) ready0).2⟩ := by
          simp [fundAccounts, hscan, hga, hfc]
        refine ⟨?_, ?_, ?_, ?_, ?_⟩
        · rw [hfa]
          exact executeTransfers_res_err env dist (sortShort shorts0) dist.sequence ready0
        · intro c evs h
          simp at h
        · intro ready shorts evs c h hg
          simp at hg
        · intro c h
          rw [hfa] at h
          rcases executeTransfers_err_cause env dist (sortShort shorts0)
              dist.sequence ready0 _ h with ⟨c', tx, n, he, hs⟩ | ⟨c', tx, he, -⟩
          · obtain rfl : c' = c := by
              cases he; rfl
            exact ⟨tx, dist, n, rfl, hs⟩
          · cases he
        · intro c h
          rw [hfa] at h
          rcases executeTransfers_err_cause env dist (sortShort shorts0)
              dist.sequence ready0 _ h with ⟨c', tx, n, he, -⟩ | ⟨c', tx, he, hb⟩
          · cases he
          · obtain rfl : c' = c := by
              cases he; rfl
            exact ⟨tx, hb⟩

/-- Witness for C4: the distributor holds 50, the sole participant is
short by 100, and with the fee of 1 the run aborts with the
insufficient-funds error and zero transfers. -/
theorem fundAccounts_insufficient_witness :
    fundAccounts envNoFunds ⟨0⟩ [⟨1⟩] 100 =
      ⟨none, some DistError.insufficientDistributorFunds,
        [Event.lookup 1] ++ [Event.lookup 0]⟩ ∧
    signedCount (fundAccounts envNoFunds ⟨0⟩ [⟨1⟩] 100).events = 0 ∧
    broadcastCount (fundAccounts envNoFunds ⟨0⟩ [⟨1⟩] 100).events = 0 :=
  fundAccounts_insufficient envNoFunds ⟨0⟩ [⟨1⟩] [] ⟨⟨1⟩, 100⟩ [] [Event.lookup 1]
    ⟨0, 50, 0⟩ 100 rfl rfl (by decide)

/-- Witness for C5: with requirement 2000, the participant holding 1900 is
recorded short by exactly 2000 - 1900, and the recorded shortfall of the
other short account is strictly positive. -/
theorem scanAccounts_classifies_witness :
    ShortAccount.mk ⟨1⟩ (2000 - 1900) ∈
      [ShortAccount.mk ⟨1⟩ 100, ShortAccount.mk ⟨2⟩ 2000] ∧
    (0 : Int) < (ShortAccount.mk ⟨2⟩ 2000).missingFunds := by
  have h := scanAccounts_classifies envTwoShorts 2000 [⟨1⟩, ⟨2⟩] []
    [⟨⟨1⟩, 100⟩, ⟨⟨2⟩, 2000⟩] [Event.lookup 1, Event.lookup 2] rfl
  refine ⟨(h.1 ⟨1⟩ (by decide) ⟨1, 1900, 0⟩ rfl).2 (by decide), ?_⟩
  obtain ⟨acc, -, -, -, hpos⟩ := h.2 ⟨⟨2⟩, 2000⟩ (by decide)
  exact hpos

/-- Witness for C6: in the two-short-accounts scenario the funding address
0 is absent from both buckets and from every signed transfer's target. -/
theorem funding_never_evaluated_witness :
    (0 : Address) ∉ List.map KeysInfo.address ([] : List KeysInfo) ∧
    (∀ sa ∈ [ShortAccount.mk ⟨1⟩ 100, ShortAccount.mk ⟨2⟩ 2000],
      sa.account.address ≠ (0 : Address)) ∧
    (∀ t ∈ signedTargets (fundAccounts envTwoShorts ⟨0⟩ [⟨1⟩, ⟨2⟩] 2000).events,
      t ≠ (0 : Address)) :=
  funding_never_evaluated envTwoShorts ⟨0⟩ [⟨1⟩, ⟨2⟩] []
    [⟨⟨1⟩, 100⟩, ⟨⟨2⟩, 2000⟩] [Event.lookup 1, Event.lookup 2] 2000
    (by decide) rfl

/-- Witness for C8: in the two-short-accounts scenario the funding address
is looked up once and the signed nonces are consecutive from the fetched
sequence number 5. -/
theorem nonce_discipline_witness :
    lookupCount 0 (fundAccounts envTwoShorts ⟨0⟩ [⟨1⟩, ⟨2⟩] 2000).events = 1 ∧
    signedNonces (fundAccounts envTwoShorts ⟨0⟩ [⟨1⟩, ⟨2⟩] 2000).events =
      List.range' 5
        (signedNonces (fundAccounts envTwoShorts ⟨0⟩ [⟨1⟩, ⟨2⟩] 2000).events).length :=
  nonce_discipline envTwoShorts ⟨0⟩ [⟨1⟩, ⟨2⟩] []
    [⟨⟨1⟩, 100⟩, ⟨⟨2⟩, 2000⟩] [Event.lookup 1, Event.lookup 2] ⟨0, 1000, 5⟩ 2000
    (by decide) rfl rfl (by decide)

/-- Witness for C9: a failing balance lookup surfaces as the wrapped
fetch-sub-account error with no result list. -/
theorem error_propagation_witness :
    fundAccounts envLookupFail ⟨0⟩ [⟨1⟩] 5 =
      ⟨none, some (DistError.fetchSubAccount "boom"), [Event.lookup 1]⟩ :=
  (error_propagation envLookupFail ⟨0⟩ [⟨1⟩] 5).2.1 "boom" [Event.lookup 1] rfl

/-- C10: `Distribute` (via `fundAccountsGo`) is defined exactly on
non-empty account lists: the Go code indexes `accounts[0]` and slices
`accounts[1:]` with no emptiness guard, so the empty list panics (modelled
as `none`) while every non-empty list yields a result. -/
theorem distribute_defined_iff_nonempty (env : Env) (n : Int) :
    Distribute env [] n = none ∧
    ∀ a rest, (Distribute env (a :: rest) n).isSome := by
  exact ⟨rfl, fun a rest => rfl⟩

end Supernova
